import Mathlib

/-!
Shallow embedding of the batched-line editor core in src/three-lines.tsx.

Coordinates and color components are modelled as rationals (the source
stores IEEE doubles / Float32 values; none of the verified operations
performs arithmetic on them except findClosestSegment, whose numeric
kernel is abstracted into explicit function parameters).  JS arrays of
points become Lean lists; a JS array slot that may be a hole (undefined)
is modelled as an Option.
-/

namespace ThreeLines

/-- One entry of a line's point array: a [number, number, number] triple. -/
structure Pt where
  x : ℚ
  y : ℚ
  z : ℚ
  deriving DecidableEq

/-- An RGB color, as the r/g/b fields of a THREE.Color. -/
structure Rgb where
  r : ℚ
  g : ℚ
  b : ℚ
  deriving DecidableEq

def pt0 : Pt := ⟨0, 0, 0⟩

def rgb0 : Rgb := ⟨0, 0, 0⟩

/-- The value returned by rebuildGeometry (source lines 233-238): the flat
position buffer, the two color buffers and the segment-to-line reverse
index. -/
structure GeomData where
  positions : List ℚ
  colors : List ℚ
  originalColors : List ℚ
  segmentToLineMap : List ℕ
  deriving DecidableEq

def GeomData.empty : GeomData := ⟨[], [], [], []⟩

def GeomData.append (a b : GeomData) : GeomData :=
  ⟨a.positions ++ b.positions, a.colors ++ b.colors,
   a.originalColors ++ b.originalColors,
   a.segmentToLineMap ++ b.segmentToLineMap⟩

/-- The consecutive point pairs (points[i], points[i+1]) of one line, in
order: the iteration space of the inner segment loop of rebuildGeometry
(source lines 195-230).  A line with fewer than 2 points yields no pairs. -/
def consecutivePairs : List Pt → List (Pt × Pt)
  | [] => []
  | [_] => []
  | p :: q :: rest => (p, q) :: consecutivePairs (q :: rest)

/-- The 6 floats one segment writes into the positions buffer
(source lines 203-210): both endpoints, x/y/z each. -/
def segPositions (p1 p2 : Pt) : List ℚ :=
  [p1.x, p1.y, p1.z, p2.x, p2.y, p2.z]

/-- The 6 floats one segment writes into the colors / originalColors
buffers (source lines 213-225): the line's base color duplicated across
both endpoints. -/
def segColors (c : Rgb) : List ℚ :=
  [c.r, c.g, c.b, c.r, c.g, c.b]

/-- The per-line segment count used by the first loop of rebuildGeometry
(source lines 171-175): lines with more than 1 point contribute
length - 1 segments, all others contribute 0. -/
def lineSegCount (pts : List Pt) : ℕ :=
  if pts.length > 1 then pts.length - 1 else 0

/-- totalSegments as computed by the first loop of rebuildGeometry
(source lines 168-175); it sizes the Float32Array allocations. -/
def totalSegments : List (List Pt) → ℕ
  | [] => 0
  | pts :: rest => lineSegCount pts + totalSegments rest

/-- The buffer data contributed by a single line at global index lineIdx:
one iteration of rebuildGeometry's outer loop (source lines 187-231).
Lines with fewer than 2 points are skipped (the continue at line 189). -/
def lineGeom (lineIdx : ℕ) (points : List Pt) (color : Rgb) : GeomData :=
  if points.length < 2 then GeomData.empty
  else
    { positions := ((consecutivePairs points).map fun pq => segPositions pq.1 pq.2).flatten
      colors := ((consecutivePairs points).map fun _ => segColors color).flatten
      originalColors := ((consecutivePairs points).map fun _ => segColors color).flatten
      segmentToLineMap := (consecutivePairs points).map fun _ => lineIdx }

/-- The outer loop of rebuildGeometry over all lines, carrying the current
line index.  The color list is consumed in lockstep, so the head is
lineColors[lineIdx] of the source (line 191); a missing color entry is
modelled as rgb0. -/
def rebuildAux : List (List Pt) → List Rgb → ℕ → GeomData
  | [], _, _ => GeomData.empty
  | pts :: rest, cols, lineIdx =>
      GeomData.append (lineGeom lineIdx pts (cols.headD rgb0))
        (rebuildAux rest cols.tail (lineIdx + 1))

/-- rebuildGeometry (source lines 166-239): rebuilds the flat buffers and
the reverse index from the per-line point sequences and base colors. -/
def rebuildGeometry (newLinePoints : List (List Pt)) (lineColors : List Rgb) : GeomData :=
  rebuildAux newLinePoints lineColors 0

theorem consecutivePairs_length (pts : List Pt) :
    (consecutivePairs pts).length = pts.length - 1 := by
  induction pts with
  | nil => rfl
  | cons p rest ih =>
    cases rest with
    | nil => rfl
    | cons q rest2 =>
      simp only [consecutivePairs, List.length_cons] at ih ⊢
      omega

theorem flatten_map_six_length {α : Type} (f : α → List ℚ)
    (hf : ∀ x, (f x).length = 6) (l : List α) :
    ((l.map f).flatten).length = 6 * l.length := by
  induction l with
  | nil => rfl
  | cons a t ih =>
    simp only [List.map_cons, List.flatten_cons, List.length_append, ih, hf,
      List.length_cons]
    ring

theorem segPositions_length (p1 p2 : Pt) : (segPositions p1 p2).length = 6 := rfl

theorem segColors_length (c : Rgb) : (segColors c).length = 6 := rfl

theorem lineSegCount_of_small (pts : List Pt) (h : pts.length < 2) :
    lineSegCount pts = 0 := by
  unfold lineSegCount
  rw [if_neg (by omega)]

theorem lineSegCount_of_large (pts : List Pt) (h : ¬ pts.length < 2) :
    lineSegCount pts = pts.length - 1 := by
  unfold lineSegCount
  rw [if_pos (by omega)]

theorem lineGeom_map_length (lineIdx : ℕ) (pts : List Pt) (c : Rgb) :
    (lineGeom lineIdx pts c).segmentToLineMap.length = lineSegCount pts := by
  by_cases h : pts.length < 2
  · rw [lineGeom, if_pos h, lineSegCount_of_small pts h]
    rfl
  · rw [lineGeom, if_neg h, lineSegCount_of_large pts h]
    show ((consecutivePairs pts).map fun _ => lineIdx).length = pts.length - 1
    rw [List.length_map, consecutivePairs_length]

theorem lineGeom_positions_length (lineIdx : ℕ) (pts : List Pt) (c : Rgb) :
    (lineGeom lineIdx pts c).positions.length = 6 * lineSegCount pts := by
  by_cases h : pts.length < 2
  · rw [lineGeom, if_pos h, lineSegCount_of_small pts h]
    rfl
  · rw [lineGeom, if_neg h, lineSegCount_of_large pts h]
    show (((consecutivePairs pts).map fun pq => segPositions pq.1 pq.2).flatten).length
      = 6 * (pts.length - 1)
    have h6 := flatten_map_six_length (fun pq : Pt × Pt => segPositions pq.1 pq.2)
      (fun pq => segPositions_length pq.1 pq.2) (consecutivePairs pts)
    rw [h6, consecutivePairs_length]

theorem lineGeom_colors_length (lineIdx : ℕ) (pts : List Pt) (c : Rgb) :
    (lineGeom lineIdx pts c).colors.length = 6 * lineSegCount pts := by
  by_cases h : pts.length < 2
  · rw [lineGeom, if_pos h, lineSegCount_of_small pts h]
    rfl
  · rw [lineGeom, if_neg h, lineSegCount_of_large pts h]
    show (((consecutivePairs pts).map fun _ => segColors c).flatten).length
      = 6 * (pts.length - 1)
    rw [flatten_map_six_length _ (fun _ => segColors_length c)]
    rw [consecutivePairs_length]

theorem lineGeom_originalColors_length (lineIdx : ℕ) (pts : List Pt) (c : Rgb) :
    (lineGeom lineIdx pts c).originalColors.length = 6 * lineSegCount pts := by
  by_cases h : pts.length < 2
  · rw [lineGeom, if_pos h, lineSegCount_of_small pts h]
    rfl
  · rw [lineGeom, if_neg h, lineSegCount_of_large pts h]
    show (((consecutivePairs pts).map fun _ => segColors c).flatten).length
      = 6 * (pts.length - 1)
    rw [flatten_map_six_length _ (fun _ => segColors_length c)]
    rw [consecutivePairs_length]

theorem rebuildAux_map_length (lines : List (List Pt)) :
    ∀ (cols : List Rgb) (k : ℕ),
      (rebuildAux lines cols k).segmentToLineMap.length = totalSegments lines := by
  induction lines with
  | nil => intro cols k; rfl
  | cons pts rest ih =>
    intro cols k
    simp only [rebuildAux, GeomData.append, totalSegments, List.length_append,
      lineGeom_map_length, ih]

theorem rebuildAux_positions_length (lines : List (List Pt)) :
    ∀ (cols : List Rgb) (k : ℕ),
      (rebuildAux lines cols k).positions.length = 6 * totalSegments lines := by
  induction lines with
  | nil => intro cols k; rfl
  | cons pts rest ih =>
    intro cols k
    simp only [rebuildAux, GeomData.append, totalSegments, List.length_append,
      lineGeom_positions_length, ih]
    ring

theorem rebuildAux_colors_length (lines : List (List Pt)) :
    ∀ (cols : List Rgb) (k : ℕ),
      (rebuildAux lines cols k).colors.length = 6 * totalSegments lines := by
  induction lines with
  | nil => intro cols k; rfl
  | cons pts rest ih =>
    intro cols k
    simp only [rebuildAux, GeomData.append, totalSegments, List.length_append,
      lineGeom_colors_length, ih]
    ring

theorem rebuildAux_originalColors_length (lines : List (List Pt)) :
    ∀ (cols : List Rgb) (k : ℕ),
      (rebuildAux lines cols k).originalColors.length = 6 * totalSegments lines := by
  induction lines with
  | nil => intro cols k; rfl
  | cons pts rest ih =>
    intro cols k
    simp only [rebuildAux, GeomData.append, totalSegments, List.length_append,
      lineGeom_originalColors_length, ih]
    ring

/-- The 6-float window of a flat buffer belonging to segment i
(components 6*i .. 6*i+5, read with default 0). -/
def blockAt (i : ℕ) (l : List ℚ) : List ℚ :=
  [l.getD (6*i) 0, l.getD (6*i+1) 0, l.getD (6*i+2) 0,
   l.getD (6*i+3) 0, l.getD (6*i+4) 0, l.getD (6*i+5) 0]

theorem getD_map_const {α : Type} (l : List α) (k i : ℕ) (h : i < l.length) :
    (l.map fun _ => k).getD i 0 = k := by
  rw [List.getD_eq_getElem _ _ (by simpa using h)]
  simp

theorem getD_map_general {α β : Type} (l : List α) (f : α → β) (i : ℕ)
    (dA : α) (dB : β) (h : i < l.length) :
    (l.map f).getD i dB = f (l.getD i dA) := by
  rw [List.getD_eq_getElem _ _ (by simpa using h), List.getD_eq_getElem _ _ h]
  simp

theorem consecutivePairs_getD (pts : List Pt) :
    ∀ (i : ℕ), i + 1 < pts.length →
      (consecutivePairs pts).getD i (pt0, pt0) = (pts.getD i pt0, pts.getD (i+1) pt0) := by
  induction pts with
  | nil => intro i h; simp at h
  | cons p rest ih =>
    intro i h
    cases rest with
    | nil => simp at h
    | cons q rest2 =>
      cases i with
      | zero => rfl
      | succ i2 =>
        have h2 : i2 + 1 < (q :: rest2).length := by
          simp at h ⊢; omega
        simp only [consecutivePairs, List.getD_cons_succ]
        exact ih i2 h2

theorem getD_flatten_six (bs : List (List ℚ)) (hb : ∀ b ∈ bs, b.length = 6) :
    ∀ (i r : ℕ), i < bs.length → r < 6 →
      bs.flatten.getD (6*i + r) 0 = (bs.getD i []).getD r 0 := by
  induction bs with
  | nil => intro i r hi hr; simp at hi
  | cons b bs2 ih =>
    intro i r hi hr
    have hbl : b.length = 6 := hb b (List.mem_cons_self b bs2)
    cases i with
    | zero =>
      simp only [List.flatten_cons, Nat.mul_zero, Nat.zero_add, List.getD_cons_zero]
      exact List.getD_append b bs2.flatten 0 r (by omega)
    | succ i2 =>
      have hlen : b.length ≤ 6 * (i2 + 1) + r := by omega
      rw [List.flatten_cons, List.getD_append_right b bs2.flatten 0 _ hlen,
        List.getD_cons_succ]
      have harith : 6 * (i2 + 1) + r - b.length = 6 * i2 + r := by omega
      rw [harith]
      exact ih (fun x hx => hb x (List.mem_cons_of_mem b hx)) i2 r (by simpa using hi) hr

theorem getD_flatten_six_at (bs : List (List ℚ)) (hb : ∀ b ∈ bs, b.length = 6)
    (i r n : ℕ) (hi : i < bs.length) (hr : r < 6) (hn : n = 6*i + r) :
    bs.flatten.getD n 0 = (bs.getD i []).getD r 0 := by
  subst hn
  exact getD_flatten_six bs hb i r hi hr

theorem blockAt_flatten_six (bs : List (List ℚ)) (hb : ∀ b ∈ bs, b.length = 6)
    (i : ℕ) (hi : i < bs.length) :
    blockAt i bs.flatten =
      [(bs.getD i []).getD 0 0, (bs.getD i []).getD 1 0, (bs.getD i []).getD 2 0,
       (bs.getD i []).getD 3 0, (bs.getD i []).getD 4 0, (bs.getD i []).getD 5 0] := by
  unfold blockAt
  rw [getD_flatten_six_at bs hb i 0 (6*i) hi (by omega) (by omega),
    getD_flatten_six_at bs hb i 1 (6*i+1) hi (by omega) (by omega),
    getD_flatten_six_at bs hb i 2 (6*i+2) hi (by omega) (by omega),
    getD_flatten_six_at bs hb i 3 (6*i+3) hi (by omega) (by omega),
    getD_flatten_six_at bs hb i 4 (6*i+4) hi (by omega) (by omega),
    getD_flatten_six_at bs hb i 5 (6*i+5) hi (by omega) (by omega)]

theorem blockAt_append_left (x y : List ℚ) (i : ℕ) (h : 6*i + 6 ≤ x.length) :
    blockAt i (x ++ y) = blockAt i x := by
  unfold blockAt
  rw [List.getD_append x y 0 (6*i) (by omega), List.getD_append x y 0 (6*i+1) (by omega),
    List.getD_append x y 0 (6*i+2) (by omega), List.getD_append x y 0 (6*i+3) (by omega),
    List.getD_append x y 0 (6*i+4) (by omega), List.getD_append x y 0 (6*i+5) (by omega)]

theorem blockAt_append_right (x y : List ℚ) (i k : ℕ)
    (hx : x.length = 6 * k) (hk : k ≤ i) :
    blockAt i (x ++ y) = blockAt (i - k) y := by
  unfold blockAt
  rw [List.getD_append_right x y 0 (6*i) (by omega),
    List.getD_append_right x y 0 (6*i+1) (by omega),
    List.getD_append_right x y 0 (6*i+2) (by omega),
    List.getD_append_right x y 0 (6*i+3) (by omega),
    List.getD_append_right x y 0 (6*i+4) (by omega),
    List.getD_append_right x y 0 (6*i+5) (by omega)]
  have e0 : 6*i - x.length = 6*(i-k) := by omega
  have e1 : 6*i+1 - x.length = 6*(i-k)+1 := by omega
  have e2 : 6*i+2 - x.length = 6*(i-k)+2 := by omega
  have e3 : 6*i+3 - x.length = 6*(i-k)+3 := by omega
  have e4 : 6*i+4 - x.length = 6*(i-k)+4 := by omega
  have e5 : 6*i+5 - x.length = 6*(i-k)+5 := by omega
  rw [e0, e1, e2, e3, e4, e5]

/-- The soundness property of the reverse index for the segment at global
index i: the mapped line L is in range, alive (at least 2 points), and the
i-th 6-float window of the positions buffer holds exactly the segment at
intra-line position j of line L, with i the j-th segment emitted after all
segments of the lines before L. -/
def segmentOwnership (lines : List (List Pt)) (g : GeomData) (i : ℕ) : Prop :=
  ∃ L j : ℕ,
    g.segmentToLineMap.getD i 0 = L ∧
    L < lines.length ∧
    2 ≤ (lines.getD L []).length ∧
    j + 1 < (lines.getD L []).length ∧
    i = totalSegments (lines.take L) + j ∧
    blockAt i g.positions =
      segPositions ((lines.getD L []).getD j pt0) ((lines.getD L []).getD (j+1) pt0)

theorem rebuildAux_ownership (lines : List (List Pt)) :
    ∀ (cols : List Rgb) (k i : ℕ),
      i < (rebuildAux lines cols k).segmentToLineMap.length →
      ∃ t j : ℕ,
        (rebuildAux lines cols k).segmentToLineMap.getD i 0 = k + t ∧
        t < lines.length ∧
        2 ≤ (lines.getD t []).length ∧
        j + 1 < (lines.getD t []).length ∧
        i = totalSegments (lines.take t) + j ∧
        blockAt i (rebuildAux lines cols k).positions =
          segPositions ((lines.getD t []).getD j pt0) ((lines.getD t []).getD (j+1) pt0) := by
  induction lines with
  | nil =>
    intro cols k i hi
    simp [rebuildAux, GeomData.empty] at hi
  | cons pts rest ih =>
    intro cols k i hi
    have hmapsplit :
        (rebuildAux (pts :: rest) cols k).segmentToLineMap
          = (lineGeom k pts (cols.headD rgb0)).segmentToLineMap
            ++ (rebuildAux rest cols.tail (k+1)).segmentToLineMap := rfl
    have hpossplit :
        (rebuildAux (pts :: rest) cols k).positions
          = (lineGeom k pts (cols.headD rgb0)).positions
            ++ (rebuildAux rest cols.tail (k+1)).positions := rfl
    have hheadlen := lineGeom_map_length k pts (cols.headD rgb0)
    have hheadpos := lineGeom_positions_length k pts (cols.headD rgb0)
    by_cases hcase : i < lineSegCount pts
    · -- the segment comes from the head line
      have hp : ¬ pts.length < 2 := by
        by_contra hsmall
        rw [lineSegCount_of_small pts hsmall] at hcase
        omega
      have hlsc : lineSegCount pts = pts.length - 1 := lineSegCount_of_large pts hp
      refine ⟨0, i, ?_, by simp, ?_, ?_, ?_, ?_⟩
      · rw [hmapsplit, List.getD_append _ _ 0 i (by omega)]
        rw [lineGeom, if_neg hp]
        show ((consecutivePairs pts).map fun _ => k).getD i 0 = k + 0
        rw [getD_map_const _ k i (by rw [consecutivePairs_length]; omega)]
        rfl
      · simpa using (by omega : 2 ≤ pts.length)
      · simpa using (by omega : i + 1 < pts.length)
      · simp [totalSegments]
      · rw [hpossplit, blockAt_append_left _ _ i (by omega)]
        rw [lineGeom, if_neg hp]
        show blockAt i (((consecutivePairs pts).map fun pq => segPositions pq.1 pq.2).flatten)
          = segPositions ((pts :: rest).getD 0 [] |>.getD i pt0)
              ((pts :: rest).getD 0 [] |>.getD (i+1) pt0)
        have hb : ∀ b ∈ (consecutivePairs pts).map fun pq => segPositions pq.1 pq.2,
            b.length = 6 := by
          intro b hbmem
          obtain ⟨pq, _, hpq⟩ := List.mem_map.mp hbmem
          rw [← hpq]
          exact segPositions_length pq.1 pq.2
        have hilt : i < ((consecutivePairs pts).map fun pq => segPositions pq.1 pq.2).length := by
          rw [List.length_map, consecutivePairs_length]
          omega
        rw [blockAt_flatten_six _ hb i hilt]
        have hgetb : ((consecutivePairs pts).map fun pq => segPositions pq.1 pq.2).getD i []
            = segPositions (pts.getD i pt0) (pts.getD (i+1) pt0) := by
          rw [getD_map_general _ _ i (pt0, pt0) [] (by rw [consecutivePairs_length]; omega)]
          rw [consecutivePairs_getD pts i (by omega)]
        rw [hgetb]
        rfl
    · -- the segment comes from the tail lines
      have hrest : i - lineSegCount pts
          < (rebuildAux rest cols.tail (k+1)).segmentToLineMap.length := by
        rw [hmapsplit, List.length_append, hheadlen] at hi
        omega
      obtain ⟨t, j, h1, h2, h3, h4, h5, h6⟩ := ih cols.tail (k+1) (i - lineSegCount pts) hrest
      refine ⟨t + 1, j, ?_, by simpa using h2, by simpa using h3, by simpa using h4, ?_, ?_⟩
      · rw [hmapsplit, List.getD_append_right _ _ 0 i (by omega), hheadlen, h1]
        omega
      · rw [List.take_succ_cons, totalSegments]
        omega
      · rw [hpossplit, blockAt_append_right _ _ i (lineSegCount pts) hheadpos (by omega)]
        simpa using h6

/-- Claim C1: after every rebuild, segmentToLineMap.length equals the sum
over all lines with at least 2 points of points.length - 1, and every
entry i names an alive line that actually contains the i-th emitted
segment at the corresponding intra-line position. -/
theorem rebuildGeometry_segmentToLineMap_sound
    (newLinePoints : List (List Pt)) (lineColors : List Rgb) :
    (rebuildGeometry newLinePoints lineColors).segmentToLineMap.length
        = totalSegments newLinePoints ∧
    ∀ i, i < (rebuildGeometry newLinePoints lineColors).segmentToLineMap.length →
      segmentOwnership newLinePoints (rebuildGeometry newLinePoints lineColors) i := by
  constructor
  · exact rebuildAux_map_length newLinePoints lineColors 0
  · intro i hi
    obtain ⟨t, j, h1, h2, h3, h4, h5, h6⟩ :=
      rebuildAux_ownership newLinePoints lineColors 0 i hi
    exact ⟨t, j, h1.trans (Nat.zero_add t), h2, h3, h4, h5, h6⟩

/-- Claim C2: for every input, the three flat buffers have equal lengths,
namely 6 times the reverse-index length. -/
theorem rebuildGeometry_buffer_lengths
    (newLinePoints : List (List Pt)) (lineColors : List Rgb)
    (_h : lineColors.length = newLinePoints.length) :
    (rebuildGeometry newLinePoints lineColors).positions.length
        = (rebuildGeometry newLinePoints lineColors).colors.length ∧
    (rebuildGeometry newLinePoints lineColors).colors.length
        = (rebuildGeometry newLinePoints lineColors).originalColors.length ∧
    (rebuildGeometry newLinePoints lineColors).positions.length
        = 6 * (rebuildGeometry newLinePoints lineColors).segmentToLineMap.length := by
  unfold rebuildGeometry
  rw [rebuildAux_positions_length, rebuildAux_colors_length,
    rebuildAux_originalColors_length, rebuildAux_map_length]
  exact ⟨rfl, rfl, rfl⟩

/-- Small concrete store used by the witnesses: three lines, the middle
one dead. -/
def demoLines : List (List Pt) :=
  [[⟨0, 0, 0⟩, ⟨1, 0, 0⟩, ⟨2, 0, 0⟩], [], [⟨0, 1, 0⟩, ⟨0, 2, 0⟩]]

def demoCols : List Rgb :=
  [⟨1, 0, 0⟩, ⟨0, 1, 0⟩, ⟨0, 0, 1⟩]

theorem rebuildGeometry_segmentToLineMap_sound_witness :
    2 < (rebuildGeometry demoLines demoCols).segmentToLineMap.length ∧
    segmentOwnership demoLines (rebuildGeometry demoLines demoCols) 2 :=
  ⟨by decide, (rebuildGeometry_segmentToLineMap_sound demoLines demoCols).2 2 (by decide)⟩

theorem rebuildGeometry_buffer_lengths_witness :
    demoCols.length = demoLines.length ∧
    ((rebuildGeometry demoLines demoCols).positions.length
        = (rebuildGeometry demoLines demoCols).colors.length ∧
     (rebuildGeometry demoLines demoCols).colors.length
        = (rebuildGeometry demoLines demoCols).originalColors.length ∧
     (rebuildGeometry demoLines demoCols).positions.length
        = 6 * (rebuildGeometry demoLines demoCols).segmentToLineMap.length) :=
  ⟨by decide, rebuildGeometry_buffer_lengths demoLines demoCols (by decide)⟩

/-- Spec-side Segment Buffer Builder for one line, written from the words
of spec section 4.1: a line with fewer than 2 points is skipped and
contributes zero segments; an alive line emits one segment per
consecutive point pair, each contributing 6 floats to positions (the two
3D points) and 6 floats each to colors and originalColors (the line's
base color duplicated across both endpoints — flat per-line coloring),
and the owning line index is appended to segmentToLine once per emitted
segment. -/
def specLineBuild (lineIdx : ℕ) (points : List Pt) (baseColor : Rgb) : GeomData :=
  if 2 ≤ points.length then
    { positions := ((points.zip points.tail).map fun pq => segPositions pq.1 pq.2).flatten
      colors := ((points.zip points.tail).map fun _ => segColors baseColor).flatten
      originalColors := ((points.zip points.tail).map fun _ => segColors baseColor).flatten
      segmentToLineMap := List.replicate (points.length - 1) lineIdx }
  else GeomData.empty

/-- Spec-side builder over all lines in ascending line-index order. -/
def specBuildFrom (startIdx : ℕ) : List (List Pt) → List Rgb → GeomData
  | [], _ => GeomData.empty
  | pts :: rest, cols =>
      GeomData.append (specLineBuild startIdx pts (cols.headD rgb0))
        (specBuildFrom (startIdx + 1) rest cols.tail)

/-- Spec-side Segment Buffer Builder contract of spec section 4.1. -/
def specSegmentBufferBuild (lines : List (List Pt)) (cols : List Rgb) : GeomData :=
  specBuildFrom 0 lines cols

theorem consecutivePairs_eq_zip (pts : List Pt) :
    consecutivePairs pts = pts.zip pts.tail := by
  induction pts with
  | nil => rfl
  | cons p rest ih =>
    cases rest with
    | nil => rfl
    | cons q rest2 =>
      simp only [consecutivePairs, List.tail_cons, List.zip_cons_cons]
      rw [ih]
      rfl

theorem map_const_eq_replicate {α : Type} (l : List α) (k : ℕ) :
    (l.map fun _ => k) = List.replicate l.length k := by
  induction l with
  | nil => rfl
  | cons a t ih => simp only [List.map_cons, ih, List.length_cons, List.replicate_succ]

theorem lineGeom_eq_specLineBuild (lineIdx : ℕ) (pts : List Pt) (c : Rgb) :
    lineGeom lineIdx pts c = specLineBuild lineIdx pts c := by
  by_cases h : pts.length < 2
  · rw [lineGeom, if_pos h, specLineBuild, if_neg (by omega)]
  · rw [lineGeom, if_neg h, specLineBuild, if_pos (by omega)]
    rw [consecutivePairs_eq_zip] at *
    have hmap : ((pts.zip pts.tail).map fun _ => lineIdx)
        = List.replicate (pts.length - 1) lineIdx := by
      rw [map_const_eq_replicate, ← consecutivePairs_eq_zip, consecutivePairs_length]
    rw [hmap]

theorem rebuildAux_eq_specBuildFrom (lines : List (List Pt)) :
    ∀ (cols : List Rgb) (k : ℕ), rebuildAux lines cols k = specBuildFrom k lines cols := by
  induction lines with
  | nil => intro cols k; rfl
  | cons pts rest ih =>
    intro cols k
    show GeomData.append (lineGeom k pts (cols.headD rgb0)) (rebuildAux rest cols.tail (k+1))
      = GeomData.append (specLineBuild k pts (cols.headD rgb0))
          (specBuildFrom (k+1) rest cols.tail)
    rw [lineGeom_eq_specLineBuild, ih]

/-- Claim C3: the buffer builder skips lines with fewer than 2 points and,
for each remaining line in ascending index order, emits one segment per
consecutive point pair — 6 floats of positions per segment and the base
color duplicated across both endpoints in colors and originalColors —
exactly as the spec-side builder written from the spec's words does. -/
theorem rebuildGeometry_matches_specBuild
    (newLinePoints : List (List Pt)) (lineColors : List Rgb) :
    rebuildGeometry newLinePoints lineColors
      = specSegmentBufferBuild newLinePoints lineColors :=
  rebuildAux_eq_specBuildFrom newLinePoints lineColors 0

/-- Claim C4: the rebuild is deterministic — equal snapshots of the store
give bit-identical output buffers.  In this embedding the operation is a
pure function of its arguments, so it also cannot modify the input
sequences. -/
theorem rebuildGeometry_deterministic
    (lp lp' : List (List Pt)) (lc lc' : List Rgb)
    (hp : lp = lp') (hc : lc = lc') :
    rebuildGeometry lp lc = rebuildGeometry lp' lc' := by
  rw [hp, hc]

theorem rebuildGeometry_deterministic_witness :
    demoLines = demoLines ∧ demoCols = demoCols ∧
    rebuildGeometry demoLines demoCols = rebuildGeometry demoLines demoCols :=
  ⟨rfl, rfl, rebuildGeometry_deterministic demoLines demoLines demoCols demoCols rfl rfl⟩

/-- deletePoint (source lines 278-312): refuses — leaving the store
unchanged — when the addressed line currently has 2 or fewer points (the
getD default [] also models the undefined check for a missing line);
otherwise splices the point out of a copy of the line. -/
def deletePoint (lines : List (List Pt)) (lineIndex pointIndex : ℕ) : List (List Pt) :=
  if (lines.getD lineIndex []).length ≤ 2 then lines
  else lines.set lineIndex ((lines.getD lineIndex []).eraseIdx pointIndex)

/-- Claim C5: deletePoint on a line with 2 or fewer points is a no-op for
the whole store; in particular a 2-point line still has exactly 2 points
afterwards. -/
theorem deletePoint_refuses_short_lines
    (lines : List (List Pt)) (lineIndex pointIndex : ℕ)
    (h : (lines.getD lineIndex []).length ≤ 2) :
    deletePoint lines lineIndex pointIndex = lines ∧
    ((lines.getD lineIndex []).length = 2 →
      ((deletePoint lines lineIndex pointIndex).getD lineIndex []).length = 2) := by
  have hno : deletePoint lines lineIndex pointIndex = lines := by
    unfold deletePoint
    rw [if_pos h]
  exact ⟨hno, fun h2 => by rw [hno, h2]⟩

theorem deletePoint_refuses_short_lines_witness :
    (demoLines.getD 2 []).length ≤ 2 ∧
    (deletePoint demoLines 2 0 = demoLines ∧
     ((demoLines.getD 2 []).length = 2 →
       ((deletePoint demoLines 2 0).getD 2 []).length = 2)) :=
  ⟨by decide, deletePoint_refuses_short_lines demoLines 2 0 (by decide)⟩

/-- A line's point array as a JS array whose slots may be holes: some p is
a stored point, none is a hole (reads as undefined). -/
def optLine (pts : List Pt) : List (Option Pt) := pts.map some

/-- JS assignment arr[i] = v on a plain array: an in-bounds write replaces
the slot, an out-of-bounds write extends the array with holes so that the
new length is i+1. -/
def jsArraySet (l : List (Option Pt)) (i : ℕ) (v : Pt) : List (Option Pt) :=
  if i < l.length then l.set i (some v)
  else l ++ List.replicate (i - l.length) none ++ [some v]

/-- Whether the synchronous rebuildGeometry call would throw on this
store: the rebuild dereferences points[i][0] for every slot of every line
with at least 2 slots (source lines 195-210), and reading a component of
a hole (undefined) throws a TypeError. -/
def rebuildThrowsOnHoles (ls : List (List (Option Pt))) : Bool :=
  ls.any fun pts => decide (2 ≤ pts.length) && pts.any fun q => q.isNone

/-- updatePointPosition (source lines 315-339), including the rebuild it
performs before committing.  The source has no bounds check: spreading
newLinePoints[lineIndex] throws when lineIndex is out of bounds (modelled
as the first error), and newPoints[pointIndex] = ... extends the copied
array when pointIndex is out of bounds.  If the extension leaves a hole
in a renderable line, the rebuild throws before setLineData runs
(modelled as the second error); otherwise the extended store is
committed.  Except.ok carries the committed linePoints. -/
def updatePointPosition (lines : List (List Pt)) (lineIndex pointIndex : ℕ)
    (newPosition : Pt) : Except String (List (List (Option Pt))) :=
  if lineIndex < lines.length then
    if rebuildThrowsOnHoles ((lines.map optLine).set lineIndex
        (jsArraySet (optLine (lines.getD lineIndex [])) pointIndex newPosition)) then
      Except.error "TypeError: hole access in rebuildGeometry"
    else
      Except.ok ((lines.map optLine).set lineIndex
        (jsArraySet (optLine (lines.getD lineIndex [])) pointIndex newPosition))
  else Except.error "TypeError: newLinePoints lineIndex is not iterable"

theorem optLine_noHoles (pts : List Pt) :
    (optLine pts).any (fun q => q.isNone) = false := by
  rw [List.any_eq_false]
  intro q hq
  obtain ⟨p, _, rfl⟩ := List.mem_map.mp hq
  simp

theorem rebuildThrowsOnHoles_false_of
    (ls : List (List (Option Pt)))
    (h : ∀ x ∈ ls, x.any (fun q => q.isNone) = false) :
    rebuildThrowsOnHoles ls = false := by
  unfold rebuildThrowsOnHoles
  rw [List.any_eq_false]
  intro x hx
  rw [h x hx]
  simp

/-- Claim C6 counterexample: calling updatePointPosition with an
out-of-bounds lineIndex throws (spreading undefined) instead of being a
silent no-op. -/
theorem updatePointPosition_oob_throws_cex :
    updatePointPosition [[⟨0, 0, 0⟩, ⟨1, 0, 0⟩]] 1 0 ⟨2, 0, 0⟩
      = Except.error "TypeError: newLinePoints lineIndex is not iterable" := rfl

/-- Claim C6 (amended): updatePointPosition with an out-of-bounds
lineIndex throws a TypeError; with an in-bounds lineIndex and a
pointIndex strictly beyond the line's length it throws during the
rebuild (the extension left a hole in a renderable line); with
pointIndex equal to the length it appends the new point (the store
changes); only an in-bounds pointIndex replaces the point in place.  In
no case is an out-of-bounds call both throw-free and a no-op. -/
theorem updatePointPosition_behavior
    (lines : List (List Pt)) (lineIndex pointIndex : ℕ) (p : Pt) :
    (lines.length ≤ lineIndex →
      updatePointPosition lines lineIndex pointIndex p
        = Except.error "TypeError: newLinePoints lineIndex is not iterable") ∧
    (lineIndex < lines.length → (lines.getD lineIndex []).length < pointIndex →
      updatePointPosition lines lineIndex pointIndex p
        = Except.error "TypeError: hole access in rebuildGeometry") ∧
    (lineIndex < lines.length → pointIndex = (lines.getD lineIndex []).length →
      updatePointPosition lines lineIndex pointIndex p
        = Except.ok ((lines.map optLine).set lineIndex
            (optLine (lines.getD lineIndex []) ++ [some p]))) ∧
    (lineIndex < lines.length → pointIndex < (lines.getD lineIndex []).length →
      updatePointPosition lines lineIndex pointIndex p
        = Except.ok ((lines.map optLine).set lineIndex
            (optLine ((lines.getD lineIndex []).set pointIndex p)))) := by
  have holen : (optLine (lines.getD lineIndex [])).length
      = (lines.getD lineIndex []).length := by
    unfold optLine
    rw [List.length_map]
  refine ⟨?_, ?_, ?_, ?_⟩
  · intro hoob
    unfold updatePointPosition
    rw [if_neg (by omega)]
  · intro hin hbig
    unfold updatePointPosition
    rw [if_pos hin]
    have hset : jsArraySet (optLine (lines.getD lineIndex [])) pointIndex p
        = optLine (lines.getD lineIndex [])
          ++ List.replicate (pointIndex - (lines.getD lineIndex []).length) none
          ++ [some p] := by
      unfold jsArraySet
      rw [if_neg (by omega), holen]
    rw [hset]
    have hthrows : rebuildThrowsOnHoles ((lines.map optLine).set lineIndex
        (optLine (lines.getD lineIndex [])
          ++ List.replicate (pointIndex - (lines.getD lineIndex []).length) none
          ++ [some p])) = true := by
      unfold rebuildThrowsOnHoles
      rw [List.any_eq_true]
      have hlt : lineIndex < ((lines.map optLine).set lineIndex
          (optLine (lines.getD lineIndex [])
            ++ List.replicate (pointIndex - (lines.getD lineIndex []).length) none
            ++ [some p])).length := by
        rw [List.length_set, List.length_map]
        omega
      refine ⟨_, List.getElem_mem hlt, ?_⟩
      rw [List.getElem_set_self]
      have hmemnone : (none : Option Pt) ∈ optLine (lines.getD lineIndex [])
          ++ List.replicate (pointIndex - (lines.getD lineIndex []).length) none
          ++ [some p] := by
        refine List.mem_append.mpr (Or.inl (List.mem_append.mpr (Or.inr ?_)))
        exact List.mem_replicate.mpr ⟨by omega, rfl⟩
      have hany : (optLine (lines.getD lineIndex [])
          ++ List.replicate (pointIndex - (lines.getD lineIndex []).length) none
          ++ [some p]).any (fun q => q.isNone) = true :=
        List.any_eq_true.mpr ⟨none, hmemnone, rfl⟩
      rw [hany]
      have hlen2 : 2 ≤ (optLine (lines.getD lineIndex [])
          ++ List.replicate (pointIndex - (lines.getD lineIndex []).length) none
          ++ [some p]).length := by
        rw [List.length_append, List.length_append, holen, List.length_replicate,
          List.length_singleton]
        omega
      rw [Bool.and_true]
      exact decide_eq_true hlen2
    rw [hthrows]
    simp
  · intro hin heq
    unfold updatePointPosition
    rw [if_pos hin]
    have hset : jsArraySet (optLine (lines.getD lineIndex [])) pointIndex p
        = optLine (lines.getD lineIndex []) ++ [some p] := by
      unfold jsArraySet
      rw [if_neg (by omega), holen, heq]
      simp
    rw [hset]
    have hok : rebuildThrowsOnHoles ((lines.map optLine).set lineIndex
        (optLine (lines.getD lineIndex []) ++ [some p])) = false := by
      apply rebuildThrowsOnHoles_false_of
      intro x hx
      rcases List.mem_or_eq_of_mem_set hx with hmem | hnew
      · obtain ⟨pts, _, rfl⟩ := List.mem_map.mp hmem
        exact optLine_noHoles pts
      · rw [hnew, List.any_append, optLine_noHoles]
        rfl
    rw [hok]
    simp
  · intro hin hlt
    unfold updatePointPosition
    rw [if_pos hin]
    have hset : jsArraySet (optLine (lines.getD lineIndex [])) pointIndex p
        = optLine ((lines.getD lineIndex []).set pointIndex p) := by
      unfold jsArraySet
      rw [if_pos (by omega)]
      unfold optLine
      rw [List.map_set]
    rw [hset]
    have hok : rebuildThrowsOnHoles ((lines.map optLine).set lineIndex
        (optLine ((lines.getD lineIndex []).set pointIndex p))) = false := by
      apply rebuildThrowsOnHoles_false_of
      intro x hx
      rcases List.mem_or_eq_of_mem_set hx with hmem | hnew
      · obtain ⟨pts, _, rfl⟩ := List.mem_map.mp hmem
        exact optLine_noHoles pts
      · rw [hnew]
        exact optLine_noHoles _
    rw [hok]
    simp

theorem updatePointPosition_behavior_witness :
    (1 : ℕ) < demoLines.length ∧ (demoLines.getD 1 []).length < 1 ∧
    updatePointPosition demoLines 1 1 pt0
      = Except.error "TypeError: hole access in rebuildGeometry" :=
  ⟨by decide, by decide,
    (updatePointPosition_behavior demoLines 1 1 pt0).2.1 (by decide) (by decide)⟩

/-- deleteLine (source lines 242-275): marks the line dead by replacing
its point sequence with the empty sequence (source line 253), keeping the
array length and every other entry; the per-line colors are passed
through unchanged (source lines 250, 261).  At its only call site the
index is the currently selected line, hence in bounds; the in-bounds
behavior of the JS assignment is exactly List.set. -/
def deleteLine (lines : List (List Pt)) (lineIndex : ℕ) : List (List Pt) :=
  lines.set lineIndex []

theorem getD_set_ne {α : Type} (l : List α) (m n : ℕ) (v d : α) (h : m ≠ n) :
    (l.set m v).getD n d = l.getD n d := by
  induction l generalizing m n with
  | nil => rfl
  | cons a t ih =>
    cases m with
    | zero =>
      cases n with
      | zero => exact absurd rfl h
      | succ n2 => rfl
    | succ m2 =>
      cases n with
      | zero => rfl
      | succ n2 =>
        show (t.set m2 v).getD n2 d = t.getD n2 d
        exact ih m2 n2 (by omega)

theorem lineGeom_map_mem (k : ℕ) (pts : List Pt) (c : Rgb) (L : ℕ) :
    L ∈ (lineGeom k pts c).segmentToLineMap ↔ (2 ≤ pts.length ∧ L = k) := by
  by_cases h : pts.length < 2
  · rw [lineGeom, if_pos h]
    show L ∈ ([] : List ℕ) ↔ _
    simp
    omega
  · rw [lineGeom, if_neg h]
    show L ∈ (consecutivePairs pts).map (fun _ => k) ↔ _
    rw [List.mem_map]
    constructor
    · rintro ⟨pq, hpq, rfl⟩
      exact ⟨by omega, rfl⟩
    · rintro ⟨h2, rfl⟩
      have hne : consecutivePairs pts ≠ [] := by
        intro hemp
        have hl := consecutivePairs_length pts
        rw [hemp] at hl
        simp at hl
        omega
      obtain ⟨pq, hpq⟩ := List.exists_mem_of_ne_nil _ hne
      exact ⟨pq, hpq, rfl⟩

theorem rebuildAux_map_mem (lines : List (List Pt)) :
    ∀ (cols : List Rgb) (k L : ℕ),
      L ∈ (rebuildAux lines cols k).segmentToLineMap ↔
        ∃ t, t < lines.length ∧ L = k + t ∧ 2 ≤ (lines.getD t []).length := by
  induction lines with
  | nil =>
    intro cols k L
    show L ∈ ([] : List ℕ) ↔ _
    simp
  | cons pts rest ih =>
    intro cols k L
    show L ∈ (lineGeom k pts (cols.headD rgb0)).segmentToLineMap
        ++ (rebuildAux rest cols.tail (k+1)).segmentToLineMap ↔ _
    rw [List.mem_append, lineGeom_map_mem, ih]
    constructor
    · rintro (⟨h2, rfl⟩ | ⟨t, ht, rfl, h2⟩)
      · exact ⟨0, by simp, by omega, by simpa using h2⟩
      · refine ⟨t + 1, by simp; omega, by omega, by simpa using h2⟩
    · rintro ⟨t, ht, rfl, h2⟩
      cases t with
      | zero => exact Or.inl ⟨by simpa using h2, by omega⟩
      | succ t2 =>
        refine Or.inr ⟨t2, by simp at ht; omega, by omega, by simpa using h2⟩

theorem totalSegments_set_nil (lines : List (List Pt)) :
    ∀ (L : ℕ), L < lines.length →
      totalSegments (lines.set L []) + lineSegCount (lines.getD L [])
        = totalSegments lines := by
  induction lines with
  | nil => intro L h; simp at h
  | cons pts rest ih =>
    intro L h
    cases L with
    | zero =>
      have h0 : lineSegCount ([] : List Pt) = 0 := rfl
      show totalSegments ([] :: rest) + lineSegCount pts = totalSegments (pts :: rest)
      simp only [totalSegments, h0]
      omega
    | succ L2 =>
      have hL2 : L2 < rest.length := by simp at h; omega
      show totalSegments (pts :: rest.set L2 []) + lineSegCount (rest.getD L2 [])
        = totalSegments (pts :: rest)
      simp only [totalSegments]
      have := ih L2 hL2
      omega

/-- Claim C7: deleteLine empties the addressed line's point sequence
without compaction — array length and all other entries unchanged — and
after the rebuild the reverse index contains no entry for the deleted
line, the total segment count having dropped by exactly the deleted
line's previous segment count. -/
theorem deleteLine_preserves_indices
    (lines : List (List Pt)) (cols : List Rgb) (lineIndex : ℕ)
    (h : lineIndex < lines.length) :
    (deleteLine lines lineIndex).length = lines.length ∧
    (deleteLine lines lineIndex).getD lineIndex [pt0] = [] ∧
    (∀ j, j ≠ lineIndex → (deleteLine lines lineIndex).getD j [] = lines.getD j []) ∧
    lineIndex ∉ (rebuildGeometry (deleteLine lines lineIndex) cols).segmentToLineMap ∧
    (rebuildGeometry (deleteLine lines lineIndex) cols).segmentToLineMap.length
        + lineSegCount (lines.getD lineIndex [])
      = (rebuildGeometry lines cols).segmentToLineMap.length := by
  refine ⟨List.length_set lines lineIndex [], ?_, ?_, ?_, ?_⟩
  · unfold deleteLine
    rw [List.getD_eq_getElem _ _ (by rw [List.length_set]; omega)]
    exact List.getElem_set_self (by rw [List.length_set]; omega)
  · intro j hj
    exact getD_set_ne lines lineIndex j [] [] (fun e => hj e.symm)
  · intro hmem
    rw [rebuildGeometry, rebuildAux_map_mem] at hmem
    obtain ⟨t, ht, heq, h2⟩ := hmem
    have htl : t = lineIndex := by omega
    subst htl
    unfold deleteLine at h2
    rw [List.getD_eq_getElem _ _ (by rw [List.length_set]; omega)] at h2
    rw [List.getElem_set_self (by rw [List.length_set]; omega)] at h2
    simp at h2
  · rw [rebuildGeometry, rebuildGeometry, rebuildAux_map_length, rebuildAux_map_length]
    exact totalSegments_set_nil lines lineIndex h

theorem deleteLine_preserves_indices_witness :
    (0 : ℕ) < demoLines.length ∧
    ((deleteLine demoLines 0).length = demoLines.length ∧
     (deleteLine demoLines 0).getD 0 [pt0] = [] ∧
     (∀ j, j ≠ 0 → (deleteLine demoLines 0).getD j [] = demoLines.getD j []) ∧
     0 ∉ (rebuildGeometry (deleteLine demoLines 0) demoCols).segmentToLineMap ∧
     (rebuildGeometry (deleteLine demoLines 0) demoCols).segmentToLineMap.length
         + lineSegCount (demoLines.getD 0 [])
       = (rebuildGeometry demoLines demoCols).segmentToLineMap.length) :=
  ⟨by decide, deleteLine_preserves_indices demoLines demoCols 0 (by decide)⟩

/-- The scan loop of findClosestSegment (source lines 350-368), carrying
the current loop index i, the best index so far (closestSegmentIndex) and
the best distance so far (minDistance, none = POSITIVE_INFINITY). -/
def findClosestAux (z : Pt → Pt → Bool) (d : Pt → Pt → Pt → ℚ) (ip : Pt) :
    List (Pt × Pt) → ℕ → ℕ → Option ℚ → ℕ
  | [], _, best, _ => best
  | (p1, p2) :: rest, i, best, minDistance =>
      if z p1 p2 then findClosestAux z d ip rest (i+1) best minDistance
      else
        match minDistance with
        | none => findClosestAux z d ip rest (i+1) i (some (d ip p1 p2))
        | some m =>
            if d ip p1 p2 < m then findClosestAux z d ip rest (i+1) i (some (d ip p1 p2))
            else findClosestAux z d ip rest (i+1) best minDistance

/-- findClosestSegment (source lines 342-373).  The floating-point kernel
is abstracted into parameters: z p1 p2 models the zero-length test
lineLength === 0 that skips a segment (the continue at line 358), and
d ip p1 p2 models the computed distance from the intersection point to
its clamped projection onto the segment (lines 360-362).  The selection
logic — closestSegmentIndex starts at 0, minDistance at infinity, both
replaced on a strict distance decrease (line 364) — is kept exactly, so
the theorems hold for every z and d, in particular for the concrete IEEE
computation of the source. -/
def findClosestSegment (z : Pt → Pt → Bool) (d : Pt → Pt → Pt → ℚ)
    (points : List Pt) (intersectionPoint : Pt) : ℕ :=
  findClosestAux z d intersectionPoint (consecutivePairs points) 0 0 none

theorem findClosestAux_cons (z : Pt → Pt → Bool) (d : Pt → Pt → Pt → ℚ) (ip : Pt)
    (p1 p2 : Pt) (rest : List (Pt × Pt)) (i best : ℕ) (m : Option ℚ) :
    findClosestAux z d ip ((p1, p2) :: rest) i best m =
      if z p1 p2 then findClosestAux z d ip rest (i+1) best m
      else
        match m with
        | none => findClosestAux z d ip rest (i+1) i (some (d ip p1 p2))
        | some mv =>
            if d ip p1 p2 < mv then findClosestAux z d ip rest (i+1) i (some (d ip p1 p2))
            else findClosestAux z d ip rest (i+1) best m := rfl

theorem findClosestAux_cons_skip (z : Pt → Pt → Bool) (d : Pt → Pt → Pt → ℚ) (ip : Pt)
    (p1 p2 : Pt) (rest : List (Pt × Pt)) (i best : ℕ) (m : Option ℚ)
    (hz : z p1 p2 = true) :
    findClosestAux z d ip ((p1, p2) :: rest) i best m
      = findClosestAux z d ip rest (i+1) best m := by
  rw [findClosestAux_cons, if_pos hz]

theorem findClosestAux_cons_first (z : Pt → Pt → Bool) (d : Pt → Pt → Pt → ℚ) (ip : Pt)
    (p1 p2 : Pt) (rest : List (Pt × Pt)) (i best : ℕ)
    (hz : z p1 p2 = false) :
    findClosestAux z d ip ((p1, p2) :: rest) i best none
      = findClosestAux z d ip rest (i+1) i (some (d ip p1 p2)) := by
  rw [findClosestAux_cons, if_neg (by rw [hz]; exact Bool.false_ne_true)]

theorem findClosestAux_cons_closer (z : Pt → Pt → Bool) (d : Pt → Pt → Pt → ℚ) (ip : Pt)
    (p1 p2 : Pt) (rest : List (Pt × Pt)) (i best : ℕ) (mv : ℚ)
    (hz : z p1 p2 = false) (hd : d ip p1 p2 < mv) :
    findClosestAux z d ip ((p1, p2) :: rest) i best (some mv)
      = findClosestAux z d ip rest (i+1) i (some (d ip p1 p2)) := by
  rw [findClosestAux_cons, if_neg (by rw [hz]; exact Bool.false_ne_true)]
  show (if d ip p1 p2 < mv then _ else _) = _
  rw [if_pos hd]

theorem findClosestAux_cons_keep (z : Pt → Pt → Bool) (d : Pt → Pt → Pt → ℚ) (ip : Pt)
    (p1 p2 : Pt) (rest : List (Pt × Pt)) (i best : ℕ) (mv : ℚ)
    (hz : z p1 p2 = false) (hd : ¬ d ip p1 p2 < mv) :
    findClosestAux z d ip ((p1, p2) :: rest) i best (some mv)
      = findClosestAux z d ip rest (i+1) best (some mv) := by
  rw [findClosestAux_cons, if_neg (by rw [hz]; exact Bool.false_ne_true)]
  show (if d ip p1 p2 < mv then _ else _) = _
  rw [if_neg hd]

theorem findClosestAux_range (z : Pt → Pt → Bool) (d : Pt → Pt → Pt → ℚ) (ip : Pt)
    (pairs : List (Pt × Pt)) :
    ∀ (i best : ℕ) (m : Option ℚ),
      findClosestAux z d ip pairs i best m = best ∨
      (i ≤ findClosestAux z d ip pairs i best m ∧
        findClosestAux z d ip pairs i best m < i + pairs.length) := by
  induction pairs with
  | nil => intro i best m; exact Or.inl rfl
  | cons pq rest ih =>
    intro i best m
    obtain ⟨p1, p2⟩ := pq
    simp only [List.length_cons]
    cases hz : z p1 p2 with
    | true =>
      rw [findClosestAux_cons_skip z d ip p1 p2 rest i best m hz]
      rcases ih (i+1) best m with h | h
      · exact Or.inl h
      · exact Or.inr ⟨by omega, by omega⟩
    | false =>
      cases m with
      | none =>
        rw [findClosestAux_cons_first z d ip p1 p2 rest i best hz]
        rcases ih (i+1) i (some (d ip p1 p2)) with h | h
        · rw [h]
          exact Or.inr ⟨by omega, by omega⟩
        · exact Or.inr ⟨by omega, by omega⟩
      | some mv =>
        by_cases hd : d ip p1 p2 < mv
        · rw [findClosestAux_cons_closer z d ip p1 p2 rest i best mv hz hd]
          rcases ih (i+1) i (some (d ip p1 p2)) with h | h
          · rw [h]
            exact Or.inr ⟨by omega, by omega⟩
          · exact Or.inr ⟨by omega, by omega⟩
        · rw [findClosestAux_cons_keep z d ip p1 p2 rest i best mv hz hd]
          rcases ih (i+1) best (some mv) with h | h
          · exact Or.inl h
          · exact Or.inr ⟨by omega, by omega⟩

theorem findClosestSegment_range (z : Pt → Pt → Bool) (d : Pt → Pt → Pt → ℚ)
    (points : List Pt) (ip : Pt) (h2 : 2 ≤ points.length) :
    findClosestSegment z d points ip ≤ points.length - 2 := by
  unfold findClosestSegment
  have hl := consecutivePairs_length points
  rcases findClosestAux_range z d ip (consecutivePairs points) 0 0 none with h | h
  · rw [h]
    omega
  · omega

/-- addPointToLine (source lines 376-426): finds the closest segment of
the addressed line and splices a copy of the intersection point in at
insertIndex = segmentIndex + 1 (lines 391-393).  The lineIndex always
comes from a valid picking result (the spread would throw otherwise), and
insertIndex never exceeds the list length, where splice and insertIdx
agree. -/
def addPointToLine (z : Pt → Pt → Bool) (d : Pt → Pt → Pt → ℚ)
    (lines : List (List Pt)) (lineIndex : ℕ) (ip : Pt) : List (List Pt) :=
  lines.set lineIndex
    ((lines.getD lineIndex []).insertIdx
      (findClosestSegment z d (lines.getD lineIndex []) ip + 1) ip)

theorem getD_insertIdx_of_lt {α : Type} (l : List α) (x : α) :
    ∀ (n k : ℕ) (d : α), k < n → (l.insertIdx n x).getD k d = l.getD k d := by
  induction l with
  | nil =>
    intro n k d hk
    cases n with
    | zero => omega
    | succ n2 => rw [List.insertIdx_succ_nil]
  | cons a t ih =>
    intro n k d hk
    cases n with
    | zero => omega
    | succ n2 =>
      rw [List.insertIdx_succ_cons]
      cases k with
      | zero => rfl
      | succ k2 =>
        rw [List.getD_cons_succ, List.getD_cons_succ]
        exact ih n2 k2 d (by omega)

theorem getD_insertIdx_add_succ {α : Type} (l : List α) (x : α) :
    ∀ (n k : ℕ) (d : α), (l.insertIdx n x).getD (n + k + 1) d = l.getD (n + k) d := by
  induction l with
  | nil =>
    intro n k d
    cases n with
    | zero =>
      rw [List.insertIdx_zero]
      rfl
    | succ n2 =>
      rw [List.insertIdx_succ_nil, List.getD_nil, List.getD_nil]
  | cons a t ih =>
    intro n k d
    cases n with
    | zero =>
      rw [List.insertIdx_zero]
      rfl
    | succ n2 =>
      rw [List.insertIdx_succ_cons]
      have e : n2 + 1 + k = (n2 + k) + 1 := by omega
      rw [e, List.getD_cons_succ, List.getD_cons_succ]
      exact ih n2 k d

theorem set_getD_self {α : Type} (l : List α) (i : ℕ) (d : α) (h : i < l.length) :
    l.set i (l.getD i d) = l := by
  induction l generalizing i with
  | nil => rfl
  | cons a t ih =>
    cases i with
    | zero => rfl
    | succ i2 =>
      show a :: t.set i2 (t.getD i2 d) = a :: t
      rw [ih i2 (by simp at h; omega)]

theorem addPointToLine_getD (z : Pt → Pt → Bool) (d : Pt → Pt → Pt → ℚ)
    (lines : List (List Pt)) (lineIndex : ℕ) (ip : Pt)
    (hl : lineIndex < lines.length) :
    (addPointToLine z d lines lineIndex ip).getD lineIndex []
      = (lines.getD lineIndex []).insertIdx
          (findClosestSegment z d (lines.getD lineIndex []) ip + 1) ip := by
  unfold addPointToLine
  rw [List.getD_eq_getElem _ _ (by rw [List.length_set]; omega)]
  exact List.getElem_set_self (by rw [List.length_set]; omega)

/-- Claim C10: for a line with at least 2 points, the add-point operation
inserts at an index between 1 and points.length - 1 inclusive
(findClosestSegment returns a segment index at most points.length - 2),
so the line's first and last points are never displaced. -/
theorem addPointToLine_interior_insert
    (z : Pt → Pt → Bool) (d : Pt → Pt → Pt → ℚ)
    (lines : List (List Pt)) (lineIndex : ℕ) (ip : Pt)
    (hl : lineIndex < lines.length)
    (h2 : 2 ≤ (lines.getD lineIndex []).length) :
    1 ≤ findClosestSegment z d (lines.getD lineIndex []) ip + 1 ∧
    findClosestSegment z d (lines.getD lineIndex []) ip + 1
        ≤ (lines.getD lineIndex []).length - 1 ∧
    ((addPointToLine z d lines lineIndex ip).getD lineIndex []).length
        = (lines.getD lineIndex []).length + 1 ∧
    ((addPointToLine z d lines lineIndex ip).getD lineIndex []).getD 0 pt0
        = (lines.getD lineIndex []).getD 0 pt0 ∧
    ((addPointToLine z d lines lineIndex ip).getD lineIndex []).getD
        (lines.getD lineIndex []).length pt0
        = (lines.getD lineIndex []).getD ((lines.getD lineIndex []).length - 1) pt0 := by
  have hrange := findClosestSegment_range z d (lines.getD lineIndex []) ip h2
  have hget := addPointToLine_getD z d lines lineIndex ip hl
  refine ⟨by omega, by omega, ?_, ?_, ?_⟩
  · rw [hget]
    exact List.length_insertIdx _ _ (by omega)
  · rw [hget]
    exact getD_insertIdx_of_lt _ ip _ 0 pt0 (by omega)
  · rw [hget]
    have hlast := getD_insertIdx_add_succ (lines.getD lineIndex []) ip
      (findClosestSegment z d (lines.getD lineIndex []) ip + 1)
      ((lines.getD lineIndex []).length
        - (findClosestSegment z d (lines.getD lineIndex []) ip + 2)) pt0
    have e1 : findClosestSegment z d (lines.getD lineIndex []) ip + 1
        + ((lines.getD lineIndex []).length
          - (findClosestSegment z d (lines.getD lineIndex []) ip + 2)) + 1
        = (lines.getD lineIndex []).length := by omega
    have e2 : findClosestSegment z d (lines.getD lineIndex []) ip + 1
        + ((lines.getD lineIndex []).length
          - (findClosestSegment z d (lines.getD lineIndex []) ip + 2))
        = (lines.getD lineIndex []).length - 1 := by omega
    rw [e1, e2] at hlast
    exact hlast

/-- Zero-length test used by the witnesses: exact equality of endpoints. -/
def demoZ : Pt → Pt → Bool := fun p q => decide (p = q)

/-- Distance stand-in used by the witnesses: squared distance from the
intersection point to the segment's first endpoint. -/
def demoD : Pt → Pt → Pt → ℚ := fun ip p1 _ =>
  (ip.x - p1.x) * (ip.x - p1.x) + (ip.y - p1.y) * (ip.y - p1.y)
    + (ip.z - p1.z) * (ip.z - p1.z)

theorem addPointToLine_interior_insert_witness :
    (0 : ℕ) < demoLines.length ∧ 2 ≤ (demoLines.getD 0 []).length ∧
    (1 ≤ findClosestSegment demoZ demoD (demoLines.getD 0 []) pt0 + 1 ∧
     findClosestSegment demoZ demoD (demoLines.getD 0 []) pt0 + 1
        ≤ (demoLines.getD 0 []).length - 1 ∧
     ((addPointToLine demoZ demoD demoLines 0 pt0).getD 0 []).length
        = (demoLines.getD 0 []).length + 1 ∧
     ((addPointToLine demoZ demoD demoLines 0 pt0).getD 0 []).getD 0 pt0
        = (demoLines.getD 0 []).getD 0 pt0 ∧
     ((addPointToLine demoZ demoD demoLines 0 pt0).getD 0 []).getD
        (demoLines.getD 0 []).length pt0
        = (demoLines.getD 0 []).getD ((demoLines.getD 0 []).length - 1) pt0) :=
  ⟨by decide, by decide,
    addPointToLine_interior_insert demoZ demoD demoLines 0 pt0 (by decide) (by decide)⟩

/-- Claim C8: inserting a point with addPointToLine and then deleting the
same point (same line index, same point index) restores the store
exactly — the line's original point sequence in order, all other lines
untouched. -/
theorem addPoint_deletePoint_roundTrip
    (z : Pt → Pt → Bool) (d : Pt → Pt → Pt → ℚ)
    (lines : List (List Pt)) (lineIndex : ℕ) (ip : Pt)
    (hl : lineIndex < lines.length)
    (h2 : 2 ≤ (lines.getD lineIndex []).length) :
    deletePoint (addPointToLine z d lines lineIndex ip) lineIndex
      (findClosestSegment z d (lines.getD lineIndex []) ip + 1) = lines := by
  have hrange := findClosestSegment_range z d (lines.getD lineIndex []) ip h2
  have hget := addPointToLine_getD z d lines lineIndex ip hl
  have hlen : ((lines.getD lineIndex []).insertIdx
      (findClosestSegment z d (lines.getD lineIndex []) ip + 1) ip).length
      = (lines.getD lineIndex []).length + 1 :=
    List.length_insertIdx _ _ (by omega)
  unfold deletePoint
  rw [hget, if_neg (by rw [hlen]; omega), List.eraseIdx_insertIdx]
  unfold addPointToLine
  rw [List.set_set]
  exact set_getD_self lines lineIndex [] hl

theorem addPoint_deletePoint_roundTrip_witness :
    (0 : ℕ) < demoLines.length ∧ 2 ≤ (demoLines.getD 0 []).length ∧
    deletePoint (addPointToLine demoZ demoD demoLines 0 pt0) 0
      (findClosestSegment demoZ demoD (demoLines.getD 0 []) pt0 + 1) = demoLines :=
  ⟨by decide, by decide,
    addPoint_deletePoint_roundTrip demoZ demoD demoLines 0 pt0 (by decide) (by decide)⟩

/-- Magenta selection color (source line 710). -/
def selectedColor : Rgb := ⟨1, 0, 1⟩

/-- Yellow hover color (source line 727). -/
def hoverColor : Rgb := ⟨1, 1, 0⟩

/-- The inner write loop of the color-update effect (source lines 714-720
and 731-737): writes the color at colorStartIdx = 6 * segmentIdx, the
component at offset i chosen by i % 3 (r, g, b).  Float32Array writes
past the end are silently dropped, the same out-of-bounds no-op semantics
as List.set. -/
def writeSegColor (colors : List ℚ) (segmentIdx : ℕ) (c : Rgb) : List ℚ :=
  (((((colors.set (6*segmentIdx) c.r).set (6*segmentIdx+1) c.g).set
      (6*segmentIdx+2) c.b).set (6*segmentIdx+3) c.r).set
      (6*segmentIdx+4) c.g).set (6*segmentIdx+5) c.b

/-- One scan over segmentToLineMap (source lines 712-722 and 729-739),
recoloring every segment whose entry equals the target line index. -/
def highlightPass : List ℕ → ℕ → ℕ → Rgb → List ℚ → List ℚ
  | [], _, _, _, colors => colors
  | L :: rest, segmentIdx, target, c, colors =>
      highlightPass rest (segmentIdx + 1) target c
        (if L = target then writeSegColor colors segmentIdx c else colors)

/-- The allocation-and-copy of source lines 699-705: a fresh buffer of
length n filled from src.  In the source the two lengths always agree
(the C2 invariant), so the default is never read. -/
def copyBuffer (n : ℕ) (src : List ℚ) : List ℚ :=
  (List.range n).map fun i => src.getD i 0

/-- The selection highlight step (source lines 709-723). -/
def selectionPass (colors : List ℚ) (map : List ℕ) : Option ℕ → List ℚ
  | some s => highlightPass map 0 s selectedColor colors
  | none => colors

/-- The hover highlight step (source lines 726-740), skipped when the
hovered line is the selected line. -/
def hoverPass (colors : List ℚ) (map : List ℕ) (hov sel : Option ℕ) : List ℚ :=
  match hov with
  | some hv => if sel = some hv then colors else highlightPass map 0 hv hoverColor colors
  | none => colors

/-- The color recomputation of the color-update effect
(source lines 696-744). -/
def computeHighlightColors (colorsLen : ℕ) (originalColors : List ℚ)
    (map : List ℕ) (hov sel : Option ℕ) : List ℚ :=
  hoverPass (selectionPass (copyBuffer colorsLen originalColors) map sel) map hov sel

/-- The whole effect on the line data: only the colors attribute is
recomputed and pushed (geometry.setColors at source line 743). -/
def applyHighlight (data : GeomData) (hov sel : Option ℕ) : GeomData :=
  ⟨data.positions,
   computeHighlightColors data.colors.length data.originalColors
     data.segmentToLineMap hov sel,
   data.originalColors, data.segmentToLineMap⟩

theorem copyBuffer_self (l : List ℚ) : copyBuffer l.length l = l := by
  apply List.ext_getElem
  · simp [copyBuffer]
  · intro i h1 h2
    simp only [copyBuffer, List.getElem_map, List.getElem_range]
    rw [List.getD_eq_getElem]

theorem getD_set_self' {α : Type} (l : List α) (m : ℕ) (v d : α) (h : m < l.length) :
    (l.set m v).getD m d = v := by
  rw [List.getD_eq_getElem _ _ (by rw [List.length_set]; omega)]
  exact List.getElem_set_self (by rw [List.length_set]; omega)

theorem writeSegColor_length (colors : List ℚ) (s : ℕ) (c : Rgb) :
    (writeSegColor colors s c).length = colors.length := by
  simp [writeSegColor]

theorem getD_writeSegColor_ne (colors : List ℚ) (s : ℕ) (c : Rgb) (m : ℕ)
    (h : ∀ r, r < 6 → m ≠ 6*s + r) :
    (writeSegColor colors s c).getD m 0 = colors.getD m 0 := by
  unfold writeSegColor
  rw [getD_set_ne _ _ _ _ _ (by have := h 5 (by omega); omega),
    getD_set_ne _ _ _ _ _ (by have := h 4 (by omega); omega),
    getD_set_ne _ _ _ _ _ (by have := h 3 (by omega); omega),
    getD_set_ne _ _ _ _ _ (by have := h 2 (by omega); omega),
    getD_set_ne _ _ _ _ _ (by have := h 1 (by omega); omega),
    getD_set_ne _ _ _ _ _ (by have := h 0 (by omega); omega)]

theorem blockAt_writeSegColor_self (colors : List ℚ) (s : ℕ) (c : Rgb)
    (h : 6*s + 6 ≤ colors.length) :
    blockAt s (writeSegColor colors s c) = segColors c := by
  unfold blockAt writeSegColor segColors
  have hl : ∀ (l : List ℚ) (m : ℕ) (v : ℚ), (l.set m v).length = l.length :=
    fun l m v => List.length_set l m v
  simp only [List.cons.injEq, and_true]
  refine ⟨?_, ?_, ?_, ?_, ?_, ?_⟩
  · rw [getD_set_ne _ _ _ _ _ (by omega), getD_set_ne _ _ _ _ _ (by omega),
      getD_set_ne _ _ _ _ _ (by omega), getD_set_ne _ _ _ _ _ (by omega),
      getD_set_ne _ _ _ _ _ (by omega)]
    exact getD_set_self' _ _ _ _ (by omega)
  · rw [getD_set_ne _ _ _ _ _ (by omega), getD_set_ne _ _ _ _ _ (by omega),
      getD_set_ne _ _ _ _ _ (by omega), getD_set_ne _ _ _ _ _ (by omega)]
    exact getD_set_self' _ _ _ _ (by simp only [hl]; omega)
  · rw [getD_set_ne _ _ _ _ _ (by omega), getD_set_ne _ _ _ _ _ (by omega),
      getD_set_ne _ _ _ _ _ (by omega)]
    exact getD_set_self' _ _ _ _ (by simp only [hl]; omega)
  · rw [getD_set_ne _ _ _ _ _ (by omega), getD_set_ne _ _ _ _ _ (by omega)]
    exact getD_set_self' _ _ _ _ (by simp only [hl]; omega)
  · rw [getD_set_ne _ _ _ _ _ (by omega)]
    exact getD_set_self' _ _ _ _ (by simp only [hl]; omega)
  · exact getD_set_self' _ _ _ _ (by simp only [hl]; omega)

theorem blockAt_writeSegColor_ne (colors : List ℚ) (s : ℕ) (c : Rgb) (j : ℕ)
    (h : j ≠ s) :
    blockAt j (writeSegColor colors s c) = blockAt j colors := by
  unfold blockAt
  rw [getD_writeSegColor_ne _ _ _ _ (by intro r hr; omega),
    getD_writeSegColor_ne _ _ _ _ (by intro r hr; omega),
    getD_writeSegColor_ne _ _ _ _ (by intro r hr; omega),
    getD_writeSegColor_ne _ _ _ _ (by intro r hr; omega),
    getD_writeSegColor_ne _ _ _ _ (by intro r hr; omega),
    getD_writeSegColor_ne _ _ _ _ (by intro r hr; omega)]

theorem highlightPass_length (map : List ℕ) :
    ∀ (k target : ℕ) (c : Rgb) (colors : List ℚ),
      (highlightPass map k target c colors).length = colors.length := by
  induction map with
  | nil => intro k target c colors; rfl
  | cons L rest ih =>
    intro k target c colors
    show (highlightPass rest (k+1) target c
        (if L = target then writeSegColor colors k c else colors)).length = colors.length
    rw [ih]
    by_cases hL : L = target
    · rw [if_pos hL, writeSegColor_length]
    · rw [if_neg hL]

theorem highlightPass_blockAt_lt (map : List ℕ) :
    ∀ (k target : ℕ) (c : Rgb) (colors : List ℚ) (j : ℕ), j < k →
      blockAt j (highlightPass map k target c colors) = blockAt j colors := by
  induction map with
  | nil => intro k target c colors j hj; rfl
  | cons L rest ih =>
    intro k target c colors j hj
    show blockAt j (highlightPass rest (k+1) target c
        (if L = target then writeSegColor colors k c else colors)) = blockAt j colors
    rw [ih (k+1) target c _ j (by omega)]
    by_cases hL : L = target
    · rw [if_pos hL]
      exact blockAt_writeSegColor_ne colors k c j (by omega)
    · rw [if_neg hL]

theorem highlightPass_blockAt (map : List ℕ) :
    ∀ (k : ℕ) (colors : List ℚ) (target : ℕ) (c : Rgb) (i : ℕ),
      i < map.length → 6 * (k + map.length) ≤ colors.length →
      blockAt (k + i) (highlightPass map k target c colors)
        = if map.getD i 0 = target then segColors c else blockAt (k + i) colors := by
  induction map with
  | nil => intro k colors target c i hi; simp at hi
  | cons L rest ih =>
    intro k colors target c i hi hcov
    simp only [List.length_cons] at hcov
    have hclen : (if L = target then writeSegColor colors k c else colors).length
        = colors.length := by
      by_cases hL : L = target
      · rw [if_pos hL, writeSegColor_length]
      · rw [if_neg hL]
    show blockAt (k + i) (highlightPass rest (k+1) target c
        (if L = target then writeSegColor colors k c else colors)) = _
    cases i with
    | zero =>
      simp only [Nat.add_zero, List.getD_cons_zero]
      rw [highlightPass_blockAt_lt rest (k+1) target c _ k (by omega)]
      by_cases hL : L = target
      · rw [if_pos hL, if_pos hL]
        exact blockAt_writeSegColor_self colors k c (by omega)
      · rw [if_neg hL, if_neg hL]
    | succ i2 =>
      have e : k + (i2 + 1) = (k + 1) + i2 := by omega
      rw [e]
      rw [ih (k+1) _ target c i2 (by simp only [List.length_cons] at hi; omega)
        (by rw [hclen]; omega)]
      rw [List.getD_cons_succ]
      by_cases hm : rest.getD i2 0 = target
      · rw [if_pos hm, if_pos hm]
      · rw [if_neg hm, if_neg hm]
        by_cases hL : L = target
        · rw [if_pos hL]
          exact blockAt_writeSegColor_ne colors k c _ (by omega)
        · rw [if_neg hL]

/-- Claim C9: the highlight recoloring starts from a copy of
originalColors, paints every segment of the selected line with the fixed
selection color, then paints the hovered line's segments with the fixed
hover color only when the hovered line differs from the selected one
(selection takes precedence), and never touches the positions buffer. -/
theorem highlightColorizer_spec (data : GeomData) (hov sel : Option ℕ)
    (hc : data.colors.length = data.originalColors.length)
    (hlen : data.originalColors.length = 6 * data.segmentToLineMap.length) :
    (applyHighlight data hov sel).positions = data.positions ∧
    (applyHighlight data hov sel).colors.length = data.originalColors.length ∧
    ∀ i, i < data.segmentToLineMap.length →
      blockAt i (applyHighlight data hov sel).colors =
        (if hov = some (data.segmentToLineMap.getD i 0) ∧ hov ≠ sel
          then segColors hoverColor
          else if sel = some (data.segmentToLineMap.getD i 0)
            then segColors selectedColor
            else blockAt i data.originalColors) := by
  have hcopy : copyBuffer data.colors.length data.originalColors = data.originalColors := by
    rw [hc]
    exact copyBuffer_self data.originalColors
  have hsellen : ∀ sl, (selectionPass data.originalColors data.segmentToLineMap sl).length
      = data.originalColors.length := by
    intro sl
    cases sl with
    | none => rfl
    | some s => exact highlightPass_length data.segmentToLineMap 0 s selectedColor _
  have hselblock : ∀ (sl : Option ℕ) (i : ℕ), i < data.segmentToLineMap.length →
      blockAt i (selectionPass data.originalColors data.segmentToLineMap sl)
        = if sl = some (data.segmentToLineMap.getD i 0) then segColors selectedColor
          else blockAt i data.originalColors := by
    intro sl i hi
    cases sl with
    | none =>
      rw [if_neg (by intro hcon; exact Option.noConfusion hcon)]
      rfl
    | some s =>
      have hb := highlightPass_blockAt data.segmentToLineMap 0 data.originalColors s
        selectedColor i hi (by rw [Nat.zero_add]; omega)
      rw [Nat.zero_add] at hb
      show blockAt i (highlightPass data.segmentToLineMap 0 s selectedColor
        data.originalColors) = _
      rw [hb]
      by_cases hm : data.segmentToLineMap.getD i 0 = s
      · rw [if_pos hm, if_pos (by rw [hm])]
      · rw [if_neg hm, if_neg (by intro hcon; exact hm (Option.some.inj hcon).symm)]
  refine ⟨rfl, ?_, ?_⟩
  · show (hoverPass (selectionPass (copyBuffer data.colors.length data.originalColors)
      data.segmentToLineMap sel) data.segmentToLineMap hov sel).length = _
    rw [hcopy]
    cases hov with
    | none => exact hsellen sel
    | some hv =>
      have hunfold : hoverPass (selectionPass data.originalColors data.segmentToLineMap sel)
          data.segmentToLineMap (some hv) sel
          = if sel = some hv
              then selectionPass data.originalColors data.segmentToLineMap sel
              else highlightPass data.segmentToLineMap 0 hv hoverColor
                (selectionPass data.originalColors data.segmentToLineMap sel) := rfl
      rw [hunfold]
      by_cases hsh : sel = some hv
      · rw [if_pos hsh]
        exact hsellen sel
      · rw [if_neg hsh, highlightPass_length]
        exact hsellen sel
  · intro i hi
    show blockAt i (hoverPass (selectionPass (copyBuffer data.colors.length
      data.originalColors) data.segmentToLineMap sel) data.segmentToLineMap hov sel) = _
    rw [hcopy]
    cases hov with
    | none =>
      rw [if_neg (by rintro ⟨hcon, _⟩; exact Option.noConfusion hcon)]
      exact hselblock sel i hi
    | some hv =>
      have hunfold : hoverPass (selectionPass data.originalColors data.segmentToLineMap sel)
          data.segmentToLineMap (some hv) sel
          = if sel = some hv
              then selectionPass data.originalColors data.segmentToLineMap sel
              else highlightPass data.segmentToLineMap 0 hv hoverColor
                (selectionPass data.originalColors data.segmentToLineMap sel) := rfl
      rw [hunfold]
      by_cases hsh : sel = some hv
      · rw [if_pos hsh]
        rw [if_neg (by rintro ⟨h1, h2⟩; exact h2 hsh.symm)]
        exact hselblock sel i hi
      · rw [if_neg hsh]
        have hb := highlightPass_blockAt data.segmentToLineMap 0
          (selectionPass data.originalColors data.segmentToLineMap sel) hv
          hoverColor i hi (by rw [Nat.zero_add, hsellen]; omega)
        rw [Nat.zero_add] at hb
        rw [hb]
        by_cases hm : data.segmentToLineMap.getD i 0 = hv
        · have hcond : some hv = some (data.segmentToLineMap.getD i 0)
              ∧ (some hv : Option ℕ) ≠ sel :=
            ⟨by rw [hm], fun hcon => hsh hcon.symm⟩
          rw [if_pos hm, if_pos hcond]
        · rw [if_neg hm,
            if_neg (by rintro ⟨h1, _⟩; exact hm (Option.some.inj h1).symm)]
          exact hselblock sel i hi

theorem highlightColorizer_spec_witness :
    (rebuildGeometry demoLines demoCols).colors.length
        = (rebuildGeometry demoLines demoCols).originalColors.length ∧
    (rebuildGeometry demoLines demoCols).originalColors.length
        = 6 * (rebuildGeometry demoLines demoCols).segmentToLineMap.length ∧
    ((applyHighlight (rebuildGeometry demoLines demoCols) (some 2) (some 0)).positions
        = (rebuildGeometry demoLines demoCols).positions ∧
     (applyHighlight (rebuildGeometry demoLines demoCols) (some 2) (some 0)).colors.length
        = (rebuildGeometry demoLines demoCols).originalColors.length ∧
     ∀ i, i < (rebuildGeometry demoLines demoCols).segmentToLineMap.length →
      blockAt i (applyHighlight (rebuildGeometry demoLines demoCols)
          (some 2) (some 0)).colors =
        (if some 2 = some ((rebuildGeometry demoLines demoCols).segmentToLineMap.getD i 0)
            ∧ (some 2 : Option ℕ) ≠ some 0
          then segColors hoverColor
          else if some 0
              = some ((rebuildGeometry demoLines demoCols).segmentToLineMap.getD i 0)
            then segColors selectedColor
            else blockAt i (rebuildGeometry demoLines demoCols).originalColors)) :=
  ⟨by decide, by decide,
    highlightColorizer_spec (rebuildGeometry demoLines demoCols) (some 2) (some 0)
      (by decide) (by decide)⟩

end ThreeLines
